import Mathlib

/-!
Verification of the asset/balance normalization and derivation layer of the
portfolio web application: the normalized asset cache (`assetsSlice.ts`), the
market-cap ordered selector, and the Yearn vault aggregation hook
(`useVaultBalances` / `getYearnVaults` / `makeVaultFiatAmount` /
`mergedVaults`).

Modelling conventions (shallow embedding):
* JavaScript strings are modelled as `Str := List Char`.
* A JavaScript object used as a keyed record table is modelled as an
  association list `List (Str × α)` whose entries appear in the object's
  property insertion order: `jsGet` is property lookup, `jsSet` is property
  assignment (overwrites in place, appends new keys at the end), `jsDelete`
  is the `delete` operator, `spread a b` is the object spread `{...a, ...b}`.
* `BigNumber` values (arbitrary-precision decimal arithmetic from
  `lib/bignumber`) are modelled as `BigNum := Option ℚ`, where `none` stands
  for `NaN`; `NaN` propagates through arithmetic and renders as the
  non-numeric string `"NaN"`.  Division by `10^p` (the code's
  ``.div(`1e+${p}`)``) is exact decimal arithmetic for the scales at play, so
  rational arithmetic is a faithful model; passing `undefined` for `p`
  produces the invalid numeral string `"1e+undefined"`, i.e. `NaN`.
* Asynchronous provider calls are modelled by passing their outcomes in as
  data: a call that can reject is an `Except Unit` value, a call that can
  resolve to `undefined` is an `Option`.
-/

/-- JavaScript strings, modelled as their character lists. -/
abbrev Str : Type := List Char

/-- Property lookup `m[k]` on a JS object modelled as an assoc list. -/
def jsGet {α : Type} : List (Str × α) → Str → Option α
  | [], _ => none
  | (k, v) :: m, key => if k = key then some v else jsGet m key

/-- Property assignment `m[k] = v`: overwrites an existing key in place
(property order is unchanged), otherwise appends the new key at the end,
exactly as JS object insertion order behaves. -/
def jsSet {α : Type} : List (Str × α) → Str → α → List (Str × α)
  | [], key, v => [(key, v)]
  | (k, w) :: m, key, v =>
    if k = key then (k, v) :: m else (k, w) :: jsSet m key v

/-- The JS `delete m[k]` operator. -/
def jsDelete {α : Type} : List (Str × α) → Str → List (Str × α)
  | [], _ => []
  | (k, w) :: m, key =>
    if k = key then jsDelete m key else (k, w) :: jsDelete m key

/-- Left-biased choice on `Option`, used to express lookups in spread
objects. -/
def jsAlt {α : Type} : Option α → Option α → Option α
  | some v, _ => some v
  | none, y => y

/-- The object spread `{...a, ...b}`: every property of `b` is assigned over
`a` in order. -/
def spread {α : Type} (a b : List (Str × α)) : List (Str × α) :=
  b.foldl (fun m kv => jsSet m kv.1 kv.2) a

/-- `Object.keys`. -/
def keysOf {α : Type} (m : List (Str × α)) : List Str :=
  m.map Prod.fst

/-- `Object.values`. -/
def valuesOf {α : Type} (m : List (Str × α)) : List α :=
  m.map Prod.snd

/-- `Array.from(new Set(l))`: deduplicate keeping the first occurrence of
each element, in insertion order. -/
def dedupFirst : List Str → List Str
  | [] => []
  | x :: xs => x :: (dedupFirst xs).filter (fun y => y ≠ x)

section MapLemmas

variable {α β : Type}

@[simp] theorem keysOf_nil : keysOf ([] : List (Str × α)) = [] := rfl

@[simp] theorem keysOf_cons (k : Str) (v : α) (m : List (Str × α)) :
    keysOf ((k, v) :: m) = k :: keysOf m := rfl

@[simp] theorem valuesOf_nil : valuesOf ([] : List (Str × α)) = [] := rfl

@[simp] theorem valuesOf_cons (k : Str) (v : α) (m : List (Str × α)) :
    valuesOf ((k, v) :: m) = v :: valuesOf m := rfl

theorem keysOf_append (l₁ l₂ : List (Str × α)) :
    keysOf (l₁ ++ l₂) = keysOf l₁ ++ keysOf l₂ := by
  simp [keysOf]

theorem jsGet_jsSet (m : List (Str × α)) (k k' : Str) (v : α) :
    jsGet (jsSet m k v) k' = if k = k' then some v else jsGet m k' := by
  induction m with
  | nil => by_cases h : k = k' <;> simp [jsSet, jsGet, h]
  | cons hd tl ih =>
    obtain ⟨k₀, w⟩ := hd
    by_cases h₀ : k₀ = k
    · subst h₀
      by_cases h₁ : k₀ = k' <;> simp [jsSet, jsGet, h₁]
    · have h₀' : ¬k = k₀ := fun h => h₀ h.symm
      by_cases h₁ : k₀ = k'
      · subst h₁
        simp [jsSet, jsGet, h₀, h₀']
      · simp [jsSet, jsGet, h₀, h₁, ih]

theorem jsGet_isSome_iff_mem (m : List (Str × α)) (k : Str) :
    (jsGet m k).isSome ↔ k ∈ keysOf m := by
  induction m with
  | nil => simp [jsGet]
  | cons hd tl ih =>
    obtain ⟨k₀, w⟩ := hd
    by_cases h : k₀ = k
    · subst h; simp [jsGet]
    · simp only [jsGet, h, if_false, keysOf_cons, List.mem_cons, ih]
      constructor
      · exact Or.inr
      · rintro (rfl | h') <;> [exact absurd rfl h; exact h']

theorem jsGet_eq_none_iff (m : List (Str × α)) (k : Str) :
    jsGet m k = none ↔ k ∉ keysOf m := by
  rw [← jsGet_isSome_iff_mem]
  cases jsGet m k <;> simp

theorem keysOf_jsSet_of_mem (m : List (Str × α)) (k : Str) (v : α)
    (h : k ∈ keysOf m) : keysOf (jsSet m k v) = keysOf m := by
  induction m with
  | nil => simp at h
  | cons hd tl ih =>
    obtain ⟨k₀, w⟩ := hd
    by_cases h₀ : k₀ = k
    · subst h₀; simp [jsSet]
    · rcases List.mem_cons.mp (by simpa using h) with h' | h'
      · exact absurd h'.symm h₀
      · simp [jsSet, h₀, ih h']

theorem keysOf_jsSet_of_not_mem (m : List (Str × α)) (k : Str) (v : α)
    (h : k ∉ keysOf m) : keysOf (jsSet m k v) = keysOf m ++ [k] := by
  induction m with
  | nil => simp [jsSet]
  | cons hd tl ih =>
    obtain ⟨k₀, w⟩ := hd
    simp only [keysOf_cons, List.mem_cons, not_or] at h
    have h₀ : ¬k₀ = k := fun e => h.1 e.symm
    simp [jsSet, h₀, ih h.2]

theorem mem_keysOf_jsSet (m : List (Str × α)) (k k' : Str) (v : α) :
    k' ∈ keysOf (jsSet m k v) ↔ k' ∈ keysOf m ∨ k' = k := by
  by_cases h : k ∈ keysOf m
  · rw [keysOf_jsSet_of_mem m k v h]
    constructor
    · exact Or.inl
    · rintro (h' | rfl) <;> [exact h'; exact h]
  · rw [keysOf_jsSet_of_not_mem m k v h]
    simp

theorem nodup_keysOf_jsSet (m : List (Str × α)) (k : Str) (v : α)
    (h : (keysOf m).Nodup) : (keysOf (jsSet m k v)).Nodup := by
  by_cases hk : k ∈ keysOf m
  · rwa [keysOf_jsSet_of_mem m k v hk]
  · rw [keysOf_jsSet_of_not_mem m k v hk]
    simpa [List.nodup_append] using ⟨h, hk⟩

theorem jsGet_append (l₁ l₂ : List (Str × α)) (k : Str) :
    jsGet (l₁ ++ l₂) k = jsAlt (jsGet l₁ k) (jsGet l₂ k) := by
  induction l₁ with
  | nil => simp [jsGet, jsAlt]
  | cons hd tl ih =>
    obtain ⟨k₀, w⟩ := hd
    by_cases h : k₀ = k <;> simp [jsGet, h, ih, jsAlt]

theorem keysOf_reverse (m : List (Str × α)) :
    keysOf m.reverse = (keysOf m).reverse := by
  simp [keysOf]

theorem jsGet_reverse_of_nodup (m : List (Str × α)) (k : Str)
    (h : (keysOf m).Nodup) : jsGet m.reverse k = jsGet m k := by
  induction m with
  | nil => rfl
  | cons hd tl ih =>
    obtain ⟨k₀, w⟩ := hd
    rw [keysOf_cons, List.nodup_cons] at h
    rw [List.reverse_cons, jsGet_append, ih h.2]
    by_cases hk : k₀ = k
    · subst hk
      have h1 : jsGet tl k₀ = none := (jsGet_eq_none_iff tl k₀).mpr h.1
      simp [h1, jsGet, jsAlt]
    · cases hc : jsGet tl k <;> simp [jsAlt, jsGet, hk, hc]

theorem jsGet_spread (a b : List (Str × α)) (k : Str) :
    jsGet (spread a b) k = jsAlt (jsGet b.reverse k) (jsGet a k) := by
  induction b generalizing a with
  | nil => simp [spread, jsGet, jsAlt]
  | cons hd tl ih =>
    obtain ⟨k₀, v₀⟩ := hd
    show jsGet (spread (jsSet a k₀ v₀) tl) k = _
    rw [ih, List.reverse_cons, jsGet_append, jsGet_jsSet]
    cases jsGet tl.reverse k with
    | some v => simp [jsAlt]
    | none => by_cases h : k₀ = k <;> simp [jsAlt, jsGet, h]

theorem mem_keysOf_spread (a b : List (Str × α)) (k : Str) :
    k ∈ keysOf (spread a b) ↔ k ∈ keysOf a ∨ k ∈ keysOf b := by
  induction b generalizing a with
  | nil => simp [spread]
  | cons hd tl ih =>
    obtain ⟨k₀, v₀⟩ := hd
    show k ∈ keysOf (spread (jsSet a k₀ v₀) tl) ↔ _
    rw [ih, mem_keysOf_jsSet]
    simp only [keysOf_cons, List.mem_cons]
    tauto

theorem keysOf_spread_of_subset (m b : List (Str × α))
    (h : ∀ k ∈ keysOf b, k ∈ keysOf m) : keysOf (spread m b) = keysOf m := by
  induction b generalizing m with
  | nil => simp [spread]
  | cons hd tl ih =>
    obtain ⟨k₀, v₀⟩ := hd
    show keysOf (spread (jsSet m k₀ v₀) tl) = keysOf m
    have hk₀ : k₀ ∈ keysOf m := h k₀ (by simp)
    have hset : keysOf (jsSet m k₀ v₀) = keysOf m :=
      keysOf_jsSet_of_mem m k₀ v₀ hk₀
    rw [ih (jsSet m k₀ v₀) ?_, hset]
    intro k hk
    rw [hset]
    exact h k (by simp [hk])

theorem nodup_keysOf_spread (a b : List (Str × α))
    (h : (keysOf a).Nodup) : (keysOf (spread a b)).Nodup := by
  induction b generalizing a with
  | nil => simpa [spread]
  | cons hd tl ih =>
    obtain ⟨k₀, v₀⟩ := hd
    exact ih (jsSet a k₀ v₀) (nodup_keysOf_jsSet a k₀ v₀ h)

/-- Two JS objects with the same keys (in order), unique keys, and the same
lookups are the same object. -/
theorem jsMap_ext (m₁ m₂ : List (Str × α)) (hkeys : keysOf m₁ = keysOf m₂)
    (hnd : (keysOf m₁).Nodup) (hget : ∀ k, jsGet m₁ k = jsGet m₂ k) :
    m₁ = m₂ := by
  induction m₁ generalizing m₂ with
  | nil =>
    cases m₂ with
    | nil => rfl
    | cons hd tl =>
      obtain ⟨k, v⟩ := hd
      simp at hkeys
  | cons hd tl ih =>
    obtain ⟨k, v⟩ := hd
    cases m₂ with
    | nil => simp at hkeys

    | cons hd₂ tl₂ =>
      obtain ⟨k₂, v₂⟩ := hd₂
      simp only [keysOf_cons, List.cons.injEq] at hkeys
      obtain ⟨rfl, htl⟩ := hkeys
      have hv : v = v₂ := by
        have := hget k
        simpa [jsGet] using this
      subst hv
      rw [keysOf_cons, List.nodup_cons] at hnd
      have htlget : ∀ k', jsGet tl k' = jsGet tl₂ k' := by
        intro k'
        by_cases hk' : k = k'
        · subst hk'
          have h₁ : jsGet tl k = none := (jsGet_eq_none_iff tl k).mpr hnd.1
          have h₂ : jsGet tl₂ k = none := by
            rw [jsGet_eq_none_iff, ← htl]
            exact hnd.1
          rw [h₁, h₂]
        · have := hget k'
          simpa [jsGet, hk'] using this
      rw [ih tl₂ htl hnd.2 htlget]

/-- Membership through `jsSet`: an entry of the updated object is the new
binding or an entry of the original object. -/
theorem mem_jsSet (m : List (Str × α)) (k : Str) (v : α) (p : Str × α)
    (h : p ∈ jsSet m k v) : p ∈ m ∨ p = (k, v) := by
  induction m with
  | nil =>
    right
    simpa [jsSet] using h
  | cons hd tl ih =>
    obtain ⟨k₀, w⟩ := hd
    by_cases h₀ : k₀ = k
    · subst h₀
      rw [show jsSet ((k₀, w) :: tl) k₀ v = (k₀, v) :: tl by simp [jsSet]] at h
      rcases List.mem_cons.mp h with h' | h'
      · right; exact h'
      · left; exact List.mem_cons_of_mem _ h'
    · rw [show jsSet ((k₀, w) :: tl) k v = (k₀, w) :: jsSet tl k v by
        simp [jsSet, h₀]] at h
      rcases List.mem_cons.mp h with h' | h'
      · left; simp [h']
      · rcases ih h' with h'' | h''
        · left; exact List.mem_cons_of_mem _ h''
        · right; exact h''

theorem jsSet_eq_append_of_not_mem (m : List (Str × α)) (k : Str) (v : α)
    (h : k ∉ keysOf m) : jsSet m k v = m ++ [(k, v)] := by
  induction m with
  | nil => simp [jsSet]
  | cons hd tl ih =>
    obtain ⟨k₀, w⟩ := hd
    simp only [keysOf_cons, List.mem_cons, not_or] at h
    have h₀ : ¬k₀ = k := fun e => h.1 e.symm
    simp [jsSet, h₀, ih h.2]

/-- Looking up in an object whose values were rewritten pointwise. -/
theorem jsGet_map_values (m : List (Str × α)) (g : Str → α → β) (k : Str) :
    jsGet (m.map (fun kv => (kv.1, g kv.1 kv.2))) k =
      (jsGet m k).map (g k) := by
  induction m with
  | nil => simp [jsGet]
  | cons hd tl ih =>
    obtain ⟨k₀, w⟩ := hd
    by_cases h : k₀ = k
    · subst h; simp [jsGet]
    · simp [jsGet, h, ih]

theorem jsDelete_eq_filter (m : List (Str × α)) (k : Str) :
    jsDelete m k = m.filter (fun kv => kv.1 ≠ k) := by
  induction m with
  | nil => rfl
  | cons hd tl ih =>
    obtain ⟨k₀, w⟩ := hd
    by_cases h : k₀ = k <;> simp [jsDelete, h, ih]

theorem jsGet_jsDelete_of_ne (m : List (Str × α)) (k k' : Str)
    (h : k' ≠ k) : jsGet (jsDelete m k) k' = jsGet m k' := by
  induction m with
  | nil => rfl
  | cons hd tl ih =>
    obtain ⟨k₀, w⟩ := hd
    by_cases h₀ : k₀ = k
    · subst h₀
      simp [jsDelete, jsGet, Ne.symm h, ih]
    · by_cases h₁ : k₀ = k' <;> simp [jsDelete, jsGet, h₀, h₁, h, ih]

end MapLemmas

section DedupLemmas

theorem mem_dedupFirst (l : List Str) (x : Str) :
    x ∈ dedupFirst l ↔ x ∈ l := by
  induction l with
  | nil => simp [dedupFirst]
  | cons hd tl ih =>
    by_cases h : x = hd
    · subst h; simp [dedupFirst]
    · simp [dedupFirst, h, ih]

theorem nodup_dedupFirst (l : List Str) : (dedupFirst l).Nodup := by
  induction l with
  | nil => simp [dedupFirst]
  | cons hd tl ih =>
    simp only [dedupFirst, List.nodup_cons]
    refine ⟨?_, ih.filter _⟩
    simp

theorem dedupFirst_eq_self_of_nodup (l : List Str) (h : l.Nodup) :
    dedupFirst l = l := by
  induction l with
  | nil => rfl
  | cons hd tl ih =>
    rw [List.nodup_cons] at h
    rw [dedupFirst, ih h.2, List.filter_eq_self.mpr]
    intro a ha
    have hne : a ≠ hd := by
      rintro rfl
      exact h.1 ha
    simp [hne]

theorem dedupFirst_append (l₁ l₂ : List Str) :
    dedupFirst (l₁ ++ l₂) =
      dedupFirst l₁ ++ (dedupFirst l₂).filter (fun y => y ∉ l₁) := by
  induction l₁ with
  | nil => simp [dedupFirst]
  | cons hd tl ih =>
    have key : ∀ a : Str,
        (decide (a ≠ hd) && decide (a ∉ tl)) = decide (a ∉ hd :: tl) := by
      intro a
      by_cases h₁ : a = hd <;> by_cases h₂ : a ∈ tl <;> simp [h₁, h₂]
    simp only [List.cons_append, dedupFirst, List.append_eq]
    rw [ih, List.filter_append, List.filter_filter]
    congr 2
    exact List.filter_congr (fun a _ => key a)

theorem dedupFirst_append_of_subset (l₁ l₂ : List Str)
    (h : ∀ x ∈ l₂, x ∈ l₁) : dedupFirst (l₁ ++ l₂) = dedupFirst l₁ := by
  rw [dedupFirst_append, List.filter_eq_nil_iff.mpr, List.append_nil]
  intro a ha
  rw [mem_dedupFirst] at ha
  simpa using h a ha

end DedupLemmas

/-! ## The asset catalog cache (`assetsSlice.ts`) -/

/-- An asset record from the normalized catalog (`Asset` of
`@shapeshiftoss/types`), restricted to the fields the verified operations
read: `name`, `symbol`, `precision` and the optional `description`. -/
structure Asset where
  name : Str
  symbol : Str
  precision : Nat
  description : Option Str
deriving DecidableEq

/-- `AssetsState`: the normalized `{byId, ids}` shape of the assets slice. -/
structure AssetsState where
  byId : List (Str × Asset)
  ids : List Str
deriving DecidableEq

/-- `initialState` of the assets slice. -/
def initialState : AssetsState := { byId := [], ids := [] }

/-- The `setAssets` reducer:
`state.byId = { ...state.byId, ...action.payload.byId }` and
`state.ids = Array.from(new Set([...state.ids, ...action.payload.ids]))`. -/
def setAssets (state : AssetsState) (payload : AssetsState) : AssetsState :=
  { byId := spread state.byId payload.byId
    ids := dedupFirst (state.ids ++ payload.ids) }

/-- The `fetchAsset.fulfilled` extra reducer:
`state.byId[assetCAIP19] = payload` and
`if (!state.ids.includes(assetCAIP19)) state.ids.push(assetCAIP19)`. -/
def fetchAssetFulfilled (state : AssetsState) (assetCAIP19 : Str)
    (payload : Asset) : AssetsState :=
  { byId := jsSet state.byId assetCAIP19 payload
    ids := if assetCAIP19 ∈ state.ids then state.ids
           else state.ids ++ [assetCAIP19] }

/-- The operations that mutate the asset cache: `setAssets` dispatches (from
the bulk `getAssets`/`getAssetDescriptions` queries) and fulfilled
single-asset fetches. -/
inductive CacheOp : Type
  | set (payload : AssetsState)
  | fetchFulfilled (assetCAIP19 : Str) (payload : Asset)

/-- Apply one cache mutation. -/
def applyCacheOp (state : AssetsState) : CacheOp → AssetsState
  | .set payload => setAssets state payload
  | .fetchFulfilled caip a => fetchAssetFulfilled state caip a

/-- Sample assets for concrete instances. -/
def assetA : Asset := ⟨"Alpha".data, "ALF".data, 18, none⟩

def assetB : Asset := ⟨"Beta".data, "BET".data, 8, none⟩

def assetC : Asset := ⟨"Gamma".data, "GAM".data, 6, none⟩

/-- C2. `setAssets` is idempotent: dispatching the same payload twice
produces exactly the same `{byId, ids}` state as dispatching it once (for
any cache state whose `byId` keys are unique, which every JS object
satisfies by construction). -/
theorem setAssets_idempotent (s p : AssetsState)
    (hnd : (keysOf s.byId).Nodup) :
    setAssets (setAssets s p) p = setAssets s p := by
  have hsub : ∀ k ∈ keysOf p.byId, k ∈ keysOf (spread s.byId p.byId) := by
    intro k hk
    rw [mem_keysOf_spread]
    exact Or.inr hk
  have hbyId : spread (spread s.byId p.byId) p.byId = spread s.byId p.byId := by
    apply jsMap_ext
    · exact keysOf_spread_of_subset _ _ hsub
    · exact nodup_keysOf_spread _ _ (nodup_keysOf_spread _ _ hnd)
    · intro k
      simp only [jsGet_spread]
      cases jsGet p.byId.reverse k <;> simp [jsAlt]
  have hids :
      dedupFirst (dedupFirst (s.ids ++ p.ids) ++ p.ids) =
        dedupFirst (s.ids ++ p.ids) := by
    rw [dedupFirst_append_of_subset]
    · exact dedupFirst_eq_self_of_nodup _ (nodup_dedupFirst _)
    · intro x hx
      rw [mem_dedupFirst]
      simp [hx]
  simp only [setAssets]
  rw [hbyId, hids]

/-- Witness for `setAssets_idempotent` at a concrete state and payload. -/
theorem setAssets_idempotent_witness :
    (keysOf (AssetsState.mk [("caip-a".data, assetA)] ["caip-a".data]).byId).Nodup ∧
      setAssets
          (setAssets (AssetsState.mk [("caip-a".data, assetA)] ["caip-a".data])
            (AssetsState.mk [("caip-b".data, assetB)] ["caip-b".data]))
          (AssetsState.mk [("caip-b".data, assetB)] ["caip-b".data]) =
        setAssets (AssetsState.mk [("caip-a".data, assetA)] ["caip-a".data])
          (AssetsState.mk [("caip-b".data, assetB)] ["caip-b".data]) :=
  ⟨by decide, setAssets_idempotent _ _ (by decide)⟩

/-- C3 counterexample. Starting from the empty cache, upserting payload `A`
(identifier `"caip-a"`) then payload `B` (identifier `"caip-b"`) does NOT
produce the same `{byId, ids}` state as upserting `B` then `A`, even though
the two payloads touch disjoint identifier sets: the `ids` array ends up
`["caip-a", "caip-b"]` in one order and `["caip-b", "caip-a"]` in the other
(and the `byId` property insertion order differs likewise). -/
theorem setAssets_not_commutative :
    setAssets
        (setAssets initialState
          (AssetsState.mk [("caip-a".data, assetA)] ["caip-a".data]))
        (AssetsState.mk [("caip-b".data, assetB)] ["caip-b".data]) ≠
      setAssets
        (setAssets initialState
          (AssetsState.mk [("caip-b".data, assetB)] ["caip-b".data]))
        (AssetsState.mk [("caip-a".data, assetA)] ["caip-a".data]) := by
  decide

/-- C3 (amended). Upserts across disjoint key sets commute up to the
insertion order of the newly appended keys and ids: dispatching `setAssets`
with `A` then `B` and with `B` then `A` yields states whose `byId` tables
agree at every identifier lookup and whose `ids` lists contain exactly the
same identifiers; the states need not be structurally identical because the
order in which new properties and ids were appended differs. -/
theorem setAssets_comm_disjoint (s A B : AssetsState)
    (hdisj : ∀ k ∈ keysOf A.byId, k ∉ keysOf B.byId) :
    (∀ k, jsGet (setAssets (setAssets s A) B).byId k =
        jsGet (setAssets (setAssets s B) A).byId k) ∧
      (∀ x, x ∈ (setAssets (setAssets s A) B).ids ↔
        x ∈ (setAssets (setAssets s B) A).ids) := by
  constructor
  · intro k
    show jsGet (spread (spread s.byId A.byId) B.byId) k =
      jsGet (spread (spread s.byId B.byId) A.byId) k
    simp only [jsGet_spread]
    rcases hA : jsGet A.byId.reverse k with _ | vA
    · cases jsGet B.byId.reverse k <;> simp [jsAlt]
    · have hkA : k ∈ keysOf A.byId := by
        have := (jsGet_isSome_iff_mem A.byId.reverse k).mp (by simp [hA])
        rwa [keysOf_reverse, List.mem_reverse] at this
      have hB : jsGet B.byId.reverse k = none := by
        rw [jsGet_eq_none_iff, keysOf_reverse, List.mem_reverse]
        exact hdisj k hkA
      simp [hA, hB, jsAlt]
  · intro x
    show x ∈ dedupFirst (dedupFirst (s.ids ++ A.ids) ++ B.ids) ↔
      x ∈ dedupFirst (dedupFirst (s.ids ++ B.ids) ++ A.ids)
    simp only [mem_dedupFirst, List.mem_append]
    tauto

/-- Witness for `setAssets_comm_disjoint` at concrete disjoint payloads. -/
theorem setAssets_comm_disjoint_witness :
    (∀ k ∈ keysOf (AssetsState.mk [("caip-a".data, assetA)] ["caip-a".data]).byId,
        k ∉ keysOf (AssetsState.mk [("caip-b".data, assetB)] ["caip-b".data]).byId) ∧
      ((∀ k, jsGet (setAssets (setAssets initialState
            (AssetsState.mk [("caip-a".data, assetA)] ["caip-a".data]))
            (AssetsState.mk [("caip-b".data, assetB)] ["caip-b".data])).byId k =
          jsGet (setAssets (setAssets initialState
            (AssetsState.mk [("caip-b".data, assetB)] ["caip-b".data]))
            (AssetsState.mk [("caip-a".data, assetA)] ["caip-a".data])).byId k) ∧
        (∀ x, x ∈ (setAssets (setAssets initialState
            (AssetsState.mk [("caip-a".data, assetA)] ["caip-a".data]))
            (AssetsState.mk [("caip-b".data, assetB)] ["caip-b".data])).ids ↔
          x ∈ (setAssets (setAssets initialState
            (AssetsState.mk [("caip-b".data, assetB)] ["caip-b".data]))
            (AssetsState.mk [("caip-a".data, assetA)] ["caip-a".data])).ids)) :=
  ⟨by decide, setAssets_comm_disjoint _ _ _ (by decide)⟩

/-- `setAssets` always leaves `ids` duplicate-free. -/
theorem nodup_ids_setAssets (s p : AssetsState) :
    (setAssets s p).ids.Nodup :=
  nodup_dedupFirst _

/-- `fetchAsset.fulfilled` preserves duplicate-freeness of `ids`. -/
theorem nodup_ids_fetchAssetFulfilled (s : AssetsState) (caip : Str)
    (a : Asset) (h : s.ids.Nodup) :
    (fetchAssetFulfilled s caip a).ids.Nodup := by
  unfold fetchAssetFulfilled
  by_cases hc : caip ∈ s.ids
  · simpa [hc]
  · simp only [hc, if_false]
    rw [List.nodup_append]
    refine ⟨h, List.nodup_singleton _, ?_⟩
    intro a ha hb
    simp only [List.mem_singleton] at hb
    exact hc (hb ▸ ha)

/-- C7. After every sequence of cache mutations (`setAssets` upserts and
fulfilled single-asset fetches) starting from the initial empty state, the
`ids` list contains no repeated identifier. -/
theorem ids_nodup_after_ops (ops : List CacheOp) :
    ((ops.foldl applyCacheOp initialState).ids).Nodup := by
  have key : ∀ (l : List CacheOp) (s : AssetsState), s.ids.Nodup →
      ((l.foldl applyCacheOp s).ids).Nodup := by
    intro l
    induction l with
    | nil => intro s hs; simpa
    | cons op rest ih =>
      intro s hs
      apply ih
      cases op with
      | set p => exact nodup_ids_setAssets s p
      | fetchFulfilled caip a => exact nodup_ids_fetchAssetFulfilled s caip a hs
  exact key ops initialState (by simp [initialState])

/-! ## The market-cap ordered selector (`selectAssetsByMarketCap`) -/

/-- A market data record; the selector consumes only the key set of the
market-data mapping (its iteration order is the provider's rank order), and
`makeVaultFiatAmount` reads the optional `price`. -/
structure MarketDataRecord where
  price : Option ℚ
deriving DecidableEq

/-- JS string comparison `a < b` (lexicographic by code unit), the
comparison lodash `sortBy` uses on string sort keys. -/
def strLtB : Str → Str → Bool
  | [], [] => false
  | [], _ :: _ => true
  | _ :: _, [] => false
  | a :: as, b :: bs => if a < b then true else if b < a then false else strLtB as bs

/-- The `['name', 'symbol']` sort key: `a` precedes-or-ties `b`. -/
def assetLe (a b : Asset) : Bool :=
  if strLtB a.name b.name then true
  else if strLtB b.name a.name then false
  else !(strLtB b.symbol a.symbol)

/-- Stable insertion of `x` into an already sorted list: `x` goes before the
first element it compares `le` to, so earlier elements win ties. -/
def insertSorted (le : Asset → Asset → Bool) (x : Asset) :
    List Asset → List Asset
  | [] => [x]
  | y :: ys => if le x y then x :: y :: ys else y :: insertSorted le x ys

/-- Stable ascending insertion sort, the model of lodash `sortBy` (lodash
guarantees a stable ascending sort; any stable sort computes the same
list). -/
def stableSortBy (le : Asset → Asset → Bool) : List Asset → List Asset
  | [] => []
  | x :: xs => insertSorted le x (stableSortBy le xs)

/-- lodash `sortBy(assets, ['name', 'symbol'])`. -/
def sortByNameSymbol (l : List Asset) : List Asset :=
  stableSortBy assetLe l

/-- The reduce loop of `selectAssetsByMarketCap` over
`Object.keys(marketData)`: for each market-data key in rank order, push the
matching asset (if any) onto the accumulator and `delete` it from the
working copy of the asset table. Returns the final working copy and the
pushed assets. -/
def selectAssetsByMarketCapGo :
    List (Str × Asset) → List Str → List (Str × Asset) × List Asset
  | m, [] => (m, [])
  | m, k :: ks =>
    match jsGet m k with
    | none => selectAssetsByMarketCapGo m ks
    | some a =>
      let r := selectAssetsByMarketCapGo (jsDelete m k) ks
      (r.1, a :: r.2)

/-- The `selectAssetsByMarketCap` selector: assets with market data first,
in the market-data mapping's iteration order, then the remaining assets
sorted by `(name, symbol)`; when market data is absent the whole table is
sorted by `(name, symbol)`. Operates on a `cloneDeep` working copy, so the
inputs are never mutated (immediate in this pure embedding). -/
def selectAssetsByMarketCap (assetsById : List (Str × Asset))
    (marketData : Option (List (Str × MarketDataRecord))) : List Asset :=
  match marketData with
  | some md =>
    let r := selectAssetsByMarketCapGo assetsById (keysOf md)
    r.2 ++ sortByNameSymbol (valuesOf r.1)
  | none => sortByNameSymbol (valuesOf assetsById)

theorem filterMap_eq_of_eq_on {α β : Type} (l : List α) (f g : α → Option β)
    (h : ∀ x ∈ l, f x = g x) : l.filterMap f = l.filterMap g := by
  induction l with
  | nil => rfl
  | cons hd tl ih =>
    rw [List.filterMap_cons, List.filterMap_cons,
      h hd (List.mem_cons_self hd tl), ih (fun x hx => h x (List.mem_cons_of_mem _ hx))]

theorem selectAssetsByMarketCapGo_spec (ks : List Str) :
    ∀ m : List (Str × Asset), ks.Nodup →
      (selectAssetsByMarketCapGo m ks).2 = ks.filterMap (jsGet m) ∧
        (selectAssetsByMarketCapGo m ks).1 =
          m.filter (fun kv => kv.1 ∉ ks) := by
  induction ks with
  | nil =>
    intro m _
    constructor
    · rfl
    · show m = m.filter _
      rw [List.filter_eq_self.mpr]
      intro kv _
      simp
  | cons k ks ih =>
    intro m hnd
    rw [List.nodup_cons] at hnd
    obtain ⟨hk, hnd⟩ := hnd
    cases hm : jsGet m k with
    | none =>
      have hmem : k ∉ keysOf m := by
        rw [← jsGet_eq_none_iff]
        exact hm
      obtain ⟨ih2, ih1⟩ := ih m hnd
      constructor
      · show (selectAssetsByMarketCapGo m (k :: ks)).2 = _
        simp only [selectAssetsByMarketCapGo, hm, List.filterMap_cons]
        exact ih2
      · show (selectAssetsByMarketCapGo m (k :: ks)).1 = _
        simp only [selectAssetsByMarketCapGo, hm]
        rw [ih1]
        apply List.filter_congr
        intro kv hkv
        have hne : kv.1 ≠ k := by
          rintro rfl
          exact hmem (List.mem_map_of_mem Prod.fst hkv)
        by_cases h₂ : kv.1 ∈ ks <;> simp [h₂, hne]
    | some a =>
      obtain ⟨ih2, ih1⟩ := ih (jsDelete m k) hnd
      have hgets : ks.filterMap (jsGet (jsDelete m k)) = ks.filterMap (jsGet m) :=
        filterMap_eq_of_eq_on _ _ _ (fun k' hk' =>
          jsGet_jsDelete_of_ne m k k' (fun e => hk (e ▸ hk')))
      constructor
      · show (selectAssetsByMarketCapGo m (k :: ks)).2 = _
        simp only [selectAssetsByMarketCapGo, hm, List.filterMap_cons]
        rw [ih2, hgets]
      · show (selectAssetsByMarketCapGo m (k :: ks)).1 = _
        simp only [selectAssetsByMarketCapGo, hm]
        rw [ih1, jsDelete_eq_filter, List.filter_filter]
        apply List.filter_congr
        intro kv _
        by_cases h₁ : kv.1 = k <;> by_cases h₂ : kv.1 ∈ ks <;> simp [h₁, h₂]

/-- Concrete instance from the spec: assets `A` (rank 2), `B` (rank 1), `C`
(no market data). -/
def exAssetsById : List (Str × Asset) :=
  [("caip-a".data, assetA), ("caip-b".data, assetB), ("caip-c".data, assetC)]

/-- Market data for the instance, iterated in rank order: `B` (rank 1) then
`A` (rank 2); `C` has no record. -/
def exMarketData : List (Str × MarketDataRecord) :=
  [("caip-b".data, ⟨some 1⟩), ("caip-a".data, ⟨some 2⟩)]

/-- C8. The sorted-by-market-cap derivation returns first exactly the
assets that have a market-data entry, in the market-data mapping's
iteration (rank) order, followed by the remaining assets sorted
lexicographically by `(name, symbol)`; in particular, for assets
`{A: rank 2, B: rank 1, C: no rank}` it returns `[B, A, C]`. The derivation
is a pure function of its inputs (the source operates on a `cloneDeep`
working copy), so the input tables are not mutated. -/
theorem selectAssetsByMarketCap_spec :
    (∀ (assetsById : List (Str × Asset)) (md : List (Str × MarketDataRecord)),
        (keysOf md).Nodup →
        selectAssetsByMarketCap assetsById (some md) =
          (keysOf md).filterMap (jsGet assetsById) ++
            sortByNameSymbol
              (valuesOf (assetsById.filter (fun kv => kv.1 ∉ keysOf md)))) ∧
      selectAssetsByMarketCap exAssetsById (some exMarketData) =
        [assetB, assetA, assetC] := by
  constructor
  · intro assetsById md hnd
    obtain ⟨h2, h1⟩ := selectAssetsByMarketCapGo_spec (keysOf md) assetsById hnd
    show (selectAssetsByMarketCapGo assetsById (keysOf md)).2 ++
        sortByNameSymbol (valuesOf (selectAssetsByMarketCapGo assetsById (keysOf md)).1) = _
    rw [h1, h2]
  · decide

/-- Witness for `selectAssetsByMarketCap_spec` at the spec's concrete
instance. -/
theorem selectAssetsByMarketCap_spec_witness :
    (keysOf exMarketData).Nodup ∧
      selectAssetsByMarketCap exAssetsById (some exMarketData) =
        (keysOf exMarketData).filterMap (jsGet exAssetsById) ++
          sortByNameSymbol
            (valuesOf (exAssetsById.filter (fun kv => kv.1 ∉ keysOf exMarketData))) :=
  ⟨by decide, selectAssetsByMarketCap_spec.1 exAssetsById exMarketData (by decide)⟩

/-! ## The asset identifier codec (`caip19.toCAIP19` / `caip19.fromCAIP19`)

Modelled from the spec: the codec lives in the external `@shapeshiftoss/caip`
package, which is not among the shown sources. Per the spec it is a
deterministic structural encoding of the tuple
`{chain, network, contractType?, tokenId?}` — chain segment required, token
segment optional, no normalization beyond the exact encoding — with parsing
failing on any string that does not match the grammar. -/

/-- The semantic tuple behind an asset identifier. -/
structure CaipTuple where
  chain : Str
  network : Str
  contractType : Option Str
  tokenId : Option Str
deriving DecidableEq

/-- A well-formed segment: nonempty and free of the two separators. -/
def okSeg (seg : Str) : Bool :=
  decide (seg ≠ []) && decide (':' ∉ seg) && decide ('/' ∉ seg)

/-- A well-formed tuple: well-formed chain and network segments, and a token
segment that is either entirely absent or entirely present (contract type
and token id together) with well-formed parts. -/
def wellFormedTuple (t : CaipTuple) : Bool :=
  okSeg t.chain && okSeg t.network &&
    (match t.contractType, t.tokenId with
     | none, none => true
     | some c, some tid => okSeg c && okSeg tid
     | _, _ => false)

/-- `caip19.toCAIP19`, modelled from the spec: `chain ':' network`
followed, when the token segment is present, by `'/' contractType ':'
tokenId`. -/
def toCAIP19 (t : CaipTuple) : Str :=
  t.chain ++ [':'] ++ t.network ++
    (match t.contractType, t.tokenId with
     | some c, some tid => ['/'] ++ c ++ [':'] ++ tid
     | _, _ => [])

/-- Split a string at the first occurrence of `sep`, returning the parts
before and after; `none` when `sep` does not occur. -/
def splitOnce (sep : Char) : Str → Option (Str × Str)
  | [] => none
  | c :: cs =>
    if c = sep then some ([], cs)
    else (splitOnce sep cs).map (fun p => (c :: p.1, p.2))

/-- `caip19.fromCAIP19`, modelled from the spec: parse the grammar above,
returning `none` (`MalformedIdentifier`) on any string that does not match
it. -/
def fromCAIP19 (s : Str) : Option CaipTuple :=
  match splitOnce '/' s with
  | none =>
    match splitOnce ':' s with
    | none => none
    | some (chain, network) =>
      if okSeg chain && okSeg network then some ⟨chain, network, none, none⟩
      else none
  | some (pre, tok) =>
    match splitOnce ':' pre, splitOnce ':' tok with
    | some (chain, network), some (ct, tid) =>
      if okSeg chain && okSeg network && okSeg ct && okSeg tid then
        some ⟨chain, network, some ct, some tid⟩
      else none
    | _, _ => none

theorem splitOnce_eq_none_of_not_mem (sep : Char) (s : Str) (h : sep ∉ s) :
    splitOnce sep s = none := by
  induction s with
  | nil => rfl
  | cons c cs ih =>
    simp only [List.mem_cons, not_or] at h
    have hc : ¬c = sep := fun e => h.1 e.symm
    simp [splitOnce, hc, ih h.2]

theorem splitOnce_append_sep (sep : Char) (a b : Str) (h : sep ∉ a) :
    splitOnce sep (a ++ sep :: b) = some (a, b) := by
  induction a with
  | nil => simp [splitOnce]
  | cons c cs ih =>
    simp only [List.mem_cons, not_or] at h
    have hc : ¬c = sep := fun e => h.1 e.symm
    simp [splitOnce, hc, ih h.2]

theorem splitOnce_eq_some (sep : Char) (s a b : Str)
    (h : splitOnce sep s = some (a, b)) : s = a ++ sep :: b ∧ sep ∉ a := by
  induction s generalizing a b with
  | nil => simp [splitOnce] at h
  | cons c cs ih =>
    by_cases hc : c = sep
    · subst hc
      simp only [splitOnce, if_pos rfl, Option.some.injEq, Prod.mk.injEq] at h
      obtain ⟨rfl, rfl⟩ := h
      simp
    · simp only [splitOnce, hc, if_false, Option.map_eq_some'] at h
      obtain ⟨p, hp, hpa⟩ := h
      obtain ⟨hpa1, hpa2⟩ := Prod.mk.injEq _ _ _ _ ▸ hpa
      obtain ⟨hcs, hsep⟩ := ih p.1 p.2 (by simpa using hp)
      subst hpa2
      constructor
      · rw [← hpa1, hcs]
        simp
      · rw [← hpa1]
        simp only [List.mem_cons, not_or]
        exact ⟨fun e => hc e.symm, hsep⟩

theorem okSeg_spec (seg : Str) (h : okSeg seg = true) :
    seg ≠ [] ∧ ':' ∉ seg ∧ '/' ∉ seg := by
  simp only [okSeg, Bool.and_eq_true, decide_eq_true_eq] at h
  exact ⟨h.1.1, h.1.2, h.2⟩

/-- C9. The asset identifier codec round-trips: formatting a well-formed
tuple and parsing the result returns the tuple, and every string that
parses successfully is the formatting of its (well-formed) parse, so
`toCAIP19` and `fromCAIP19` are two-sided inverses between well-formed
tuples and well-formed (grammar-matching) identifier strings. -/
theorem caip19_roundtrip :
    (∀ t : CaipTuple, wellFormedTuple t = true →
        fromCAIP19 (toCAIP19 t) = some t) ∧
      (∀ (s : Str) (t : CaipTuple), fromCAIP19 s = some t →
        toCAIP19 t = s ∧ wellFormedTuple t = true) := by
  constructor
  · rintro ⟨chain, network, ct, tid⟩ h
    simp only [wellFormedTuple, Bool.and_eq_true] at h
    obtain ⟨⟨hchain, hnetwork⟩, htok⟩ := h
    obtain ⟨hc1, hc2, hc3⟩ := okSeg_spec _ hchain
    obtain ⟨hn1, hn2, hn3⟩ := okSeg_spec _ hnetwork
    cases ct with
    | none =>
      cases tid with
      | none =>
        have hform : toCAIP19 ⟨chain, network, none, none⟩ =
            chain ++ ':' :: network := by
          simp [toCAIP19]
        have hnoslash : '/' ∉ chain ++ ':' :: network := by
          simp only [List.mem_append, List.mem_cons, not_or]
          exact ⟨hc3, by decide, hn3⟩
        have h1 : splitOnce '/' (toCAIP19 ⟨chain, network, none, none⟩) = none := by
          rw [hform]
          exact splitOnce_eq_none_of_not_mem '/' _ hnoslash
        have h2 : splitOnce ':' (toCAIP19 ⟨chain, network, none, none⟩) =
            some (chain, network) := by
          rw [hform]
          exact splitOnce_append_sep ':' chain network hc2
        simp [fromCAIP19, h1, h2, hchain, hnetwork]
      | some tid => simp at htok
    | some c =>
      cases tid with
      | none => simp at htok
      | some tid =>
        simp only at htok
        rw [Bool.and_eq_true] at htok
        obtain ⟨hct, htid⟩ := htok
        obtain ⟨ht1, ht2, ht3⟩ := okSeg_spec _ hct
        obtain ⟨hi1, hi2, hi3⟩ := okSeg_spec _ htid
        have hform : toCAIP19 ⟨chain, network, some c, some tid⟩ =
            (chain ++ ':' :: network) ++ '/' :: (c ++ ':' :: tid) := by
          simp [toCAIP19]
        have hnoslash : '/' ∉ chain ++ ':' :: network := by
          simp only [List.mem_append, List.mem_cons, not_or]
          exact ⟨hc3, by decide, hn3⟩
        have h1 : splitOnce '/' (toCAIP19 ⟨chain, network, some c, some tid⟩) =
            some (chain ++ ':' :: network, c ++ ':' :: tid) := by
          rw [hform]
          exact splitOnce_append_sep '/' _ _ hnoslash
        have h2 : splitOnce ':' (chain ++ ':' :: network) =
            some (chain, network) := splitOnce_append_sep ':' chain network hc2
        have h3 : splitOnce ':' (c ++ ':' :: tid) = some (c, tid) :=
          splitOnce_append_sep ':' c tid ht2
        simp [fromCAIP19, h1, h2, h3, hchain, hnetwork, hct, htid]
  · intro s t h
    cases hsplit : splitOnce '/' s with
    | none =>
      cases hsplit2 : splitOnce ':' s with
      | none => simp [fromCAIP19, hsplit, hsplit2] at h
      | some p =>
        obtain ⟨chain, network⟩ := p
        simp only [fromCAIP19, hsplit, hsplit2] at h
        by_cases hok : (okSeg chain && okSeg network) = true
        · rw [if_pos hok] at h
          obtain rfl : CaipTuple.mk chain network none none = t :=
            Option.some.inj h
          obtain ⟨hs, _⟩ := splitOnce_eq_some ':' s chain network hsplit2
          rw [Bool.and_eq_true] at hok
          constructor
          · rw [hs]
            simp [toCAIP19]
          · simp [wellFormedTuple, hok.1, hok.2]
        · rw [if_neg hok] at h
          exact absurd h (by simp)
    | some p =>
      obtain ⟨pre, tok⟩ := p
      cases hsplit2 : splitOnce ':' pre with
      | none => simp [fromCAIP19, hsplit, hsplit2] at h
      | some q =>
        obtain ⟨chain, network⟩ := q
        cases hsplit3 : splitOnce ':' tok with
        | none => simp [fromCAIP19, hsplit, hsplit2, hsplit3] at h
        | some r =>
          obtain ⟨ct, tid⟩ := r
          simp only [fromCAIP19, hsplit, hsplit2, hsplit3] at h
          by_cases hok :
              (okSeg chain && okSeg network && okSeg ct && okSeg tid) = true
          · rw [if_pos hok] at h
            obtain rfl : CaipTuple.mk chain network (some ct) (some tid) = t :=
              Option.some.inj h
            obtain ⟨hs, _⟩ := splitOnce_eq_some '/' s pre tok hsplit
            obtain ⟨hpre, _⟩ := splitOnce_eq_some ':' pre chain network hsplit2
            obtain ⟨htok, _⟩ := splitOnce_eq_some ':' tok ct tid hsplit3
            simp only [Bool.and_eq_true] at hok
            constructor
            · rw [hs, hpre, htok]
              simp [toCAIP19]
            · simp [wellFormedTuple, hok.1.1.1, hok.1.1.2, hok.1.2, hok.2]
          · rw [if_neg hok] at h
            exact absurd h (by simp)

/-- Concrete tuple for the round-trip witness. -/
def exCaipTuple : CaipTuple :=
  ⟨"eip155".data, "1".data, some "erc20".data, some "0xabc".data⟩

/-- Witness for `caip19_roundtrip` at a concrete well-formed tuple. -/
theorem caip19_roundtrip_witness :
    wellFormedTuple exCaipTuple = true ∧
      fromCAIP19 (toCAIP19 exCaipTuple) = some exCaipTuple :=
  ⟨by decide, caip19_roundtrip.1 exCaipTuple (by decide)⟩

/-! ## BigNumber arithmetic (`lib/bignumber`) and the Yearn vault layer -/

/-- A `BigNumber` value: `none` is `NaN`, `some q` a finite decimal. -/
abbrev BigNum : Type := Option ℚ

/-- `bnOrZero(x)`: `BigNumber(x)` when `x` is a valid numeric value, else
`BigNumber(0)` (covers `undefined`, `null` and `NaN` inputs). -/
def bnOrZero (x : Option ℚ) : BigNum :=
  some (x.getD 0)

/-- `x.times(y)`: `NaN` propagates through multiplication. -/
def BigNum.times : BigNum → BigNum → BigNum
  | some a, some b => some (a * b)
  | _, _ => none

/-- ``x.div(`1e+${p}`)``: division by the decimal power `10^p`. When `p` is
`undefined` the template string is the invalid numeral `"1e+undefined"`, so
the result is `NaN`; `NaN` input also propagates. Division by a power of
ten is exact in decimal arithmetic at the precisions in play, so the exact
rational quotient is the faithful value. -/
def BigNum.divPow10 : BigNum → Option Nat → BigNum
  | some a, some p => some (a / 10 ^ p)
  | _, _ => none

/-- A vault definition from the static `SUPPORTED_VAULTS` list (the list
itself lives outside the shown sources, so the computation is verified for
an arbitrary list). -/
structure VaultDef where
  chain : Str
  vaultAddress : Str
  tokenAddress : Str
deriving DecidableEq

/-- A balance record from the wallet's balance snapshot
(`chainAdapters.Account`), restricted to the `balance` field the vault
computation reads (a raw integer amount in smallest units). -/
structure BalanceRec where
  balance : ℚ
deriving DecidableEq

/-- `EarnVault`: vault definition spread together with the balance record
and the derived identifiers and price-per-share. -/
structure EarnVault where
  chain : Str
  vaultAddress : Str
  tokenAddress : Str
  balance : Option ℚ
  vaultCaip19 : Str
  tokenCaip19 : Str
  pricePerShare : BigNum
deriving DecidableEq

/-- `NetworkTypes.MAINNET` and `ContractTypes.ERC20` (opaque identifier
constants of the external types package; only their values as key material
matter here). -/
def MAINNET : Str := "mainnet".data

def ERC20 : Str := "erc20".data

/-- `caip19.toCAIP19({chain, network: MAINNET, contractType: ERC20,
tokenId})` as used by `getYearnVaults`. -/
def mkVaultCaip (chain tokenId : Str) : Str :=
  toCAIP19 ⟨chain, MAINNET, some ERC20, some tokenId⟩

/-- The loop body of `getYearnVaults`: walk `SUPPORTED_VAULTS`, skip vaults
whose vault-token identifier has no balance entry, `await` the provider's
`pricePerShare` for held vaults (a rejection propagates out of the loop as
an exception; a resolved `undefined` — or an absent provider — is passed to
`bnOrZero`), and accumulate `acc[vault.vaultAddress] = {...}`. -/
def getYearnVaultsGo (balances : Str → Option BalanceRec)
    (yearn : Option (Str → Except Unit (Option ℚ)))
    (acc : List (Str × EarnVault)) :
    List VaultDef → Except Unit (List (Str × EarnVault))
  | [] => .ok acc
  | v :: rest =>
    let vaultCaip := mkVaultCaip v.chain v.vaultAddress
    let tokenCaip := mkVaultCaip v.chain v.tokenAddress
    match balances vaultCaip with
    | none => getYearnVaultsGo balances yearn acc rest
    | some b =>
      let ppsRes : Except Unit (Option ℚ) :=
        match yearn with
        | none => .ok none
        | some pps => pps v.vaultAddress
      match ppsRes with
      | .error e => .error e
      | .ok pv =>
        getYearnVaultsGo balances yearn
          (jsSet acc v.vaultAddress
            ⟨v.chain, v.vaultAddress, v.tokenAddress, some b.balance,
              vaultCaip, tokenCaip, bnOrZero pv⟩) rest

/-- `getYearnVaults(balances, yearn)` over a supported-vault list. -/
def getYearnVaults (vaultList : List VaultDef)
    (balances : Str → Option BalanceRec)
    (yearn : Option (Str → Except Unit (Option ℚ))) :
    Except Unit (List (Str × EarnVault)) :=
  getYearnVaultsGo balances yearn [] vaultList

/-- `makeVaultFiatAmount(vault)`:
`bnOrZero(vault.balance).div(`1e+${asset?.precision}`)
  .times(bnOrZero(vault.pricePerShare).div(`1e+${asset?.precision}`))
  .times(bnOrZero(marketData.byId[vault.tokenCaip19]?.price))`
with `asset = assets[vault.vaultCaip19]`. -/
def makeVaultFiatAmount (assets : List (Str × Asset))
    (marketById : List (Str × MarketDataRecord)) (vault : EarnVault) :
    BigNum :=
  let asset := jsGet assets vault.vaultCaip19
  let pricePerShare :=
    BigNum.divPow10 (bnOrZero vault.pricePerShare) (asset.map Asset.precision)
  let marketPrice := (jsGet marketById vault.tokenCaip19).bind MarketDataRecord.price
  BigNum.times
    (BigNum.times
      (BigNum.divPow10 (bnOrZero vault.balance) (asset.map Asset.precision))
      pricePerShare)
    (bnOrZero marketPrice)

/-- C1. For a held vault whose asset record is present (with precision at
most 20, within which `BigNumber`'s default 20-decimal-place division is
exact on raw integer amounts, so the arithmetic is exact decimal
arithmetic), the fiat amount is exactly
`(rawBalance / 10^precision) * (pricePerShare / 10^precision) * price`. -/
theorem makeVaultFiatAmount_formula (assets : List (Str × Asset))
    (marketById : List (Str × MarketDataRecord)) (vault : EarnVault)
    (a : Asset) (bal pps : ℤ) (price : ℚ)
    (ha : jsGet assets vault.vaultCaip19 = some a)
    (_hprec : a.precision ≤ 20)
    (hbal : vault.balance = some (bal : ℚ))
    (hpps : vault.pricePerShare = some (pps : ℚ))
    (hprice : (jsGet marketById vault.tokenCaip19).bind
        MarketDataRecord.price = some price) :
    makeVaultFiatAmount assets marketById vault =
      some (((bal : ℚ) / 10 ^ a.precision) *
        ((pps : ℚ) / 10 ^ a.precision) * price) := by
  unfold makeVaultFiatAmount
  rw [ha, hbal, hpps, hprice]
  simp [bnOrZero, BigNum.divPow10, BigNum.times]

/-- Concrete fiat-amount scenario from the spec: precision 18, raw balance
`10^18` (1.0 unit), raw pricePerShare `2 * 10^18` (2.0), underlying price
10. -/
def exVault : EarnVault :=
  ⟨"ethereum".data, "0xvault".data, "0xtoken".data,
    some ((1000000000000000000 : ℤ) : ℚ),
    "caip-vault".data, "caip-token".data,
    some ((2000000000000000000 : ℤ) : ℚ)⟩

def exVaultAssets : List (Str × Asset) :=
  [("caip-vault".data, ⟨"YVault".data, "yvDAI".data, 18, none⟩)]

def exVaultMarket : List (Str × MarketDataRecord) :=
  [("caip-token".data, ⟨some 10⟩)]

/-- Witness for `makeVaultFiatAmount_formula` at the spec's scenario: the
result is exactly `1.0 * 2.0 * 10 = 20`. -/
theorem makeVaultFiatAmount_formula_witness :
    jsGet exVaultAssets exVault.vaultCaip19 =
        some ⟨"YVault".data, "yvDAI".data, 18, none⟩ ∧
      makeVaultFiatAmount exVaultAssets exVaultMarket exVault = some 20 := by
  constructor
  · decide
  · rw [makeVaultFiatAmount_formula exVaultAssets exVaultMarket exVault
      ⟨"YVault".data, "yvDAI".data, 18, none⟩ 1000000000000000000
      2000000000000000000 10 (by decide) (by norm_num) (by decide) (by decide)
      (by decide)]
    norm_num

/-- Entries of a successful `getYearnVaults` run come from the accumulator
or from a supported vault whose vault-token identifier had a balance
entry. -/
theorem getYearnVaultsGo_mem (bal : Str → Option BalanceRec)
    (y : Option (Str → Except Unit (Option ℚ))) (L : List VaultDef) :
    ∀ (acc res : List (Str × EarnVault)),
      getYearnVaultsGo bal y acc L = .ok res → ∀ p ∈ res,
        p ∈ acc ∨ ∃ u ∈ L, u.vaultAddress = p.1 ∧
          (bal (mkVaultCaip u.chain u.vaultAddress)).isSome := by
  induction L with
  | nil =>
    intro acc res h p hp
    left
    have : acc = res := by simpa [getYearnVaultsGo] using h
    rw [this]
    exact hp
  | cons v rest ih =>
    intro acc res h p hp
    cases hb : bal (mkVaultCaip v.chain v.vaultAddress) with
    | none =>
      simp only [getYearnVaultsGo, hb] at h
      rcases ih acc res h p hp with h' | ⟨u, hu, hua, hubal⟩
      · left; exact h'
      · right; exact ⟨u, List.mem_cons_of_mem _ hu, hua, hubal⟩
    | some b =>
      rcases hE : (match y with
          | none => Except.ok (none : Option ℚ)
          | some pps => pps v.vaultAddress) with e | pv
      · simp only [getYearnVaultsGo, hb, hE] at h
        exact absurd h (by simp)
      · simp only [getYearnVaultsGo, hb, hE] at h
        rcases ih _ res h p hp with h' | ⟨u, hu, hua, hubal⟩
        · rcases mem_jsSet _ _ _ _ h' with h'' | h''
          · left; exact h''
          · right
            refine ⟨v, List.mem_cons_self _ _, ?_, by simp [hb]⟩
            rw [h'']
        · right; exact ⟨u, List.mem_cons_of_mem _ hu, hua, hubal⟩

/-- C4. A vault definition whose vault-token identifier has no balance
entry in the wallet's balance snapshot (zero holding) never appears in the
output of `getYearnVaults`: only held vaults are materialized. (The
address-uniqueness hypothesis rules out a distinct supported vault reusing
the same vault address.) -/
theorem getYearnVaults_excludes_unheld (L : List VaultDef)
    (bal : Str → Option BalanceRec)
    (y : Option (Str → Except Unit (Option ℚ)))
    (res : List (Str × EarnVault)) (v : VaultDef)
    (hok : getYearnVaults L bal y = .ok res)
    (hv : v ∈ L)
    (hbal : bal (mkVaultCaip v.chain v.vaultAddress) = none)
    (huniq : ∀ u ∈ L, u.vaultAddress = v.vaultAddress → u = v) :
    v.vaultAddress ∉ keysOf res := by
  intro hmem
  obtain ⟨p, hp, hfst⟩ := List.mem_map.mp hmem
  rcases getYearnVaultsGo_mem bal y L [] res hok p hp with h | ⟨u, hu, hua, hbs⟩
  · exact absurd h (List.not_mem_nil _)
  · have huv : u = v := huniq u hu (by rw [hua, hfst])
    subst huv
    rw [hbal] at hbs
    simp at hbs

/-- Concrete vault definitions for witnesses and counterexamples. -/
def exVaultDef1 : VaultDef := ⟨"ethereum".data, "0xv1".data, "0xt1".data⟩

def exVaultDef2 : VaultDef := ⟨"ethereum".data, "0xv2".data, "0xt2".data⟩

/-- Witness for `getYearnVaults_excludes_unheld`: with no balance entries at
all, the single supported vault is excluded and the result is empty. -/
theorem getYearnVaults_excludes_unheld_witness :
    getYearnVaults [exVaultDef1] (fun _ => none) none = .ok [] ∧
      exVaultDef1.vaultAddress ∉ keysOf ([] : List (Str × EarnVault)) :=
  ⟨rfl, getYearnVaults_excludes_unheld [exVaultDef1] (fun _ => none) none []
    exVaultDef1 rfl (by decide) rfl (by decide)⟩

/-- Lookup of a listed entry under unique keys. -/
theorem jsGet_of_mem_of_nodup {α : Type} (m : List (Str × α)) (k : Str)
    (v : α) (hnd : (keysOf m).Nodup) (h : (k, v) ∈ m) :
    jsGet m k = some v := by
  induction m with
  | nil => exact absurd h (List.not_mem_nil _)
  | cons hd tl ih =>
    obtain ⟨k₀, w⟩ := hd
    rw [keysOf_cons, List.nodup_cons] at hnd
    rcases List.mem_cons.mp h with h' | h'
    · obtain ⟨rfl, rfl⟩ := Prod.mk.injEq _ _ _ _ ▸ h'
      simp [jsGet]
    · have hk : k ∈ keysOf tl := List.mem_map_of_mem Prod.fst h'
      have hne : ¬k₀ = k := fun e => hnd.1 (e ▸ hk)
      simp [jsGet, hne, ih hnd.2 h']

/-! ## The merged vault view (`mergedVaults` in `useVaultBalances`) -/

/-- `MergedEarnVault`: the `EarnVault` fields spread together with the
derived `cryptoAmount`, `fiatAmount` and optional `apy`. The two amounts
are `BigNumber` values (the source calls `.toString()` on them; `NaN`
renders as the non-numeric string `"NaN"`). -/
structure MergedEarnVault where
  chain : Str
  vaultAddress : Str
  tokenAddress : Str
  balance : Option ℚ
  vaultCaip19 : Str
  tokenCaip19 : Str
  pricePerShare : BigNum
  cryptoAmount : BigNum
  fiatAmount : BigNum
  apy : Option ℚ
deriving DecidableEq

/-- The body of the `mergedVaults` reduce for one `[vaultAddress, vault]`
entry. Note the source reads `assets[vaultAddress]` (the raw entry key) for
`cryptoAmount`'s precision, while `makeVaultFiatAmount` reads
`assets[vault.vaultCaip19]`; `yearn?.findByVaultTokenId(vaultAddress)`
supplies the optional net APY. -/
def mergeVault (assets : List (Str × Asset))
    (marketById : List (Str × MarketDataRecord))
    (yearnFind : Option (Str → Option ℚ)) (vaultAddress : Str)
    (vault : EarnVault) : MergedEarnVault :=
  let asset := jsGet assets vaultAddress
  { chain := vault.chain
    vaultAddress := vault.vaultAddress
    tokenAddress := vault.tokenAddress
    balance := vault.balance
    vaultCaip19 := vault.vaultCaip19
    tokenCaip19 := vault.tokenCaip19
    pricePerShare := vault.pricePerShare
    cryptoAmount :=
      BigNum.divPow10 (bnOrZero vault.balance) (asset.map Asset.precision)
    fiatAmount := makeVaultFiatAmount assets marketById vault
    apy := yearnFind.bind (fun f => f vaultAddress) }

/-- The `Object.entries(vaults).reduce` loop of `mergedVaults`, accumulating
`acc[vaultAddress] = {...}`. -/
def mergedVaultsGo (assets : List (Str × Asset))
    (marketById : List (Str × MarketDataRecord))
    (yearnFind : Option (Str → Option ℚ)) :
    List (Str × MergedEarnVault) → List (Str × EarnVault) →
      List (Str × MergedEarnVault)
  | acc, [] => acc
  | acc, (addr, v) :: rest =>
    mergedVaultsGo assets marketById yearnFind
      (jsSet acc addr (mergeVault assets marketById yearnFind addr v)) rest

/-- `mergedVaults`: the memoized merge of the computed vault map with the
asset catalog, market data and the provider's APY lookup. -/
def mergedVaults (vaults : List (Str × EarnVault))
    (assets : List (Str × Asset))
    (marketById : List (Str × MarketDataRecord))
    (yearnFind : Option (Str → Option ℚ)) : List (Str × MergedEarnVault) :=
  mergedVaultsGo assets marketById yearnFind [] vaults

theorem mergedVaultsGo_eq (assets : List (Str × Asset))
    (marketById : List (Str × MarketDataRecord))
    (yearnFind : Option (Str → Option ℚ)) (vaults : List (Str × EarnVault)) :
    ∀ acc, (keysOf vaults).Nodup →
      (∀ k ∈ keysOf vaults, k ∉ keysOf acc) →
      mergedVaultsGo assets marketById yearnFind acc vaults =
        acc ++ vaults.map
          (fun kv => (kv.1, mergeVault assets marketById yearnFind kv.1 kv.2)) := by
  induction vaults with
  | nil =>
    intro acc _ _
    simp [mergedVaultsGo]
  | cons hd rest ih =>
    obtain ⟨addr, v⟩ := hd
    intro acc hnd hdisj
    rw [keysOf_cons, List.nodup_cons] at hnd
    have haddr : addr ∉ keysOf acc := hdisj addr (by simp)
    show mergedVaultsGo assets marketById yearnFind
      (jsSet acc addr (mergeVault assets marketById yearnFind addr v)) rest = _
    rw [ih (jsSet acc addr (mergeVault assets marketById yearnFind addr v))
      hnd.2 ?_, jsSet_eq_append_of_not_mem acc addr _ haddr]
    · simp
    · intro k hk
      rw [mem_keysOf_jsSet]
      push_neg
      refine ⟨hdisj k (by simp [hk]), ?_⟩
      rintro rfl
      exact hnd.1 hk

/-- C10. The merged vault view has exactly the vault-address keys of the
computed vault map: every held vault is emitted even when its asset record
is absent from the asset catalog at merge time, in which case its
`cryptoAmount` and `fiatAmount` are computed with an undefined precision
and degrade to `NaN` (`BigNumber` renders it as the non-numeric string
`"NaN"`), rather than the vault being excluded or a placeholder emitted. -/
theorem mergedVaults_spec (vaults : List (Str × EarnVault))
    (assets : List (Str × Asset))
    (marketById : List (Str × MarketDataRecord))
    (yearnFind : Option (Str → Option ℚ))
    (hnd : (keysOf vaults).Nodup) :
    keysOf (mergedVaults vaults assets marketById yearnFind) = keysOf vaults ∧
      ∀ addr v, (addr, v) ∈ vaults →
        jsGet assets addr = none → jsGet assets v.vaultCaip19 = none →
        ∃ m, jsGet (mergedVaults vaults assets marketById yearnFind) addr =
            some m ∧
          m.cryptoAmount = none ∧ m.fiatAmount = none := by
  have heq : mergedVaults vaults assets marketById yearnFind =
      vaults.map
        (fun kv => (kv.1, mergeVault assets marketById yearnFind kv.1 kv.2)) := by
    unfold mergedVaults
    rw [mergedVaultsGo_eq assets marketById yearnFind vaults [] hnd
      (by intro k _; simp)]
    simp
  constructor
  · rw [heq]
    simp [keysOf, List.map_map, Function.comp]
  · intro addr v hmem ha hcaip
    have hlook : jsGet vaults addr = some v :=
      jsGet_of_mem_of_nodup vaults addr v hnd hmem
    refine ⟨mergeVault assets marketById yearnFind addr v, ?_, ?_, ?_⟩
    · rw [heq, jsGet_map_values, hlook]
      rfl
    · simp [mergeVault, ha, bnOrZero, BigNum.divPow10]
    · simp [mergeVault, makeVaultFiatAmount, hcaip, bnOrZero,
        BigNum.divPow10, BigNum.times]

/-- A held vault record for the merged-view witness. -/
def exHeldVault : EarnVault :=
  ⟨"ethereum".data, "0xv1".data, "0xt1".data, some 5,
    "caip-v1".data, "caip-t1".data, some 0⟩

/-- Witness for `mergedVaults_spec`: a single held vault with an empty asset
catalog is still emitted, with `NaN` amounts. -/
theorem mergedVaults_spec_witness :
    (keysOf [("0xv1".data, exHeldVault)]).Nodup ∧
      (keysOf (mergedVaults [("0xv1".data, exHeldVault)] [] [] none) =
          keysOf [("0xv1".data, exHeldVault)] ∧
        ∀ addr v, (addr, v) ∈ [("0xv1".data, exHeldVault)] →
          jsGet ([] : List (Str × Asset)) addr = none →
          jsGet ([] : List (Str × Asset)) v.vaultCaip19 = none →
          ∃ m, jsGet (mergedVaults [("0xv1".data, exHeldVault)] [] [] none)
              addr = some m ∧
            m.cryptoAmount = none ∧ m.fiatAmount = none) :=
  ⟨by decide, mergedVaults_spec [("0xv1".data, exHeldVault)] [] [] none
    (by decide)⟩

/-! ## C5: degraded price-per-share behavior -/

/-- Balance snapshot holding every identifier (both sample vaults held). -/
def exBalances : Str → Option BalanceRec := fun _ => some ⟨1⟩

/-- A provider whose `pricePerShare` REJECTS for vault `0xv1` and resolves
for every other vault. -/
def exRejectingPPS : Str → Except Unit (Option ℚ) :=
  fun addr => if addr = "0xv1".data then .error () else .ok (some 1)

/-- A provider whose `pricePerShare` resolves `undefined` (no value) for
vault `0xv1` and resolves a value for every other vault. -/
def exMissingPPS : Str → Except Unit (Option ℚ) :=
  fun addr => if addr = "0xv1".data then .ok none else .ok (some 1)

/-- C5 counterexample. When the `pricePerShare` fetch for the first held
vault REJECTS (the promise throws), the un-caught `await` aborts the whole
`getYearnVaults` loop: the computation returns the error and no vault set
at all is produced — in particular the second held vault, whose own fetch
would have succeeded, is not computed. This contradicts the claim that a
failed fetch degrades to zero without aborting the batch; only a fetch that
resolves with no value degrades to zero. -/
theorem getYearnVaults_rejection_aborts :
    getYearnVaults [exVaultDef1, exVaultDef2] exBalances
        (some exRejectingPPS) = .error () ∧
      ∀ res, getYearnVaults [exVaultDef1, exVaultDef2] exBalances
          (some exRejectingPPS) ≠ .ok res := by
  have h1 : getYearnVaults [exVaultDef1, exVaultDef2] exBalances
      (some exRejectingPPS) = .error () := rfl
  refine ⟨h1, fun res hres => ?_⟩
  rw [h1] at hres
  exact Except.noConfusion hres

/-- The `EarnVault` record `getYearnVaults` builds for vault `v` held with
balance record `b` when its `pricePerShare` fetch resolves with no value:
`bnOrZero(undefined)` makes the price-per-share numeric zero. -/
def mkDegradedVault (v : VaultDef) (b : BalanceRec) : EarnVault :=
  ⟨v.chain, v.vaultAddress, v.tokenAddress, some b.balance,
    mkVaultCaip v.chain v.vaultAddress, mkVaultCaip v.chain v.tokenAddress,
    bnOrZero none⟩

/-- A successful (never-rejecting) provider lets the whole batch succeed. -/
theorem getYearnVaultsGo_ok (bal : Str → Option BalanceRec)
    (pps : Str → Except Unit (Option ℚ)) (L : List VaultDef) :
    ∀ acc, (∀ u ∈ L, ∃ x, pps u.vaultAddress = .ok x) →
      ∃ res, getYearnVaultsGo bal (some pps) acc L = .ok res := by
  induction L with
  | nil => intro acc _; exact ⟨acc, rfl⟩
  | cons v rest ih =>
    intro acc hall
    cases hb : bal (mkVaultCaip v.chain v.vaultAddress) with
    | none =>
      obtain ⟨res, hres⟩ := ih acc (fun u hu => hall u (List.mem_cons_of_mem _ hu))
      refine ⟨res, ?_⟩
      simp only [getYearnVaultsGo, hb]
      exact hres
    | some b =>
      obtain ⟨x, hx⟩ := hall v (List.mem_cons_self _ _)
      obtain ⟨res, hres⟩ := ih _ (fun u hu => hall u (List.mem_cons_of_mem _ hu))
      refine ⟨res, ?_⟩
      simp only [getYearnVaultsGo, hb, hx]
      exact hres

/-- Keys outside the supported-vault address list pass through untouched. -/
theorem getYearnVaultsGo_untouched (bal : Str → Option BalanceRec)
    (y : Option (Str → Except Unit (Option ℚ))) (L : List VaultDef) :
    ∀ acc res k, getYearnVaultsGo bal y acc L = .ok res →
      k ∉ L.map VaultDef.vaultAddress → jsGet res k = jsGet acc k := by
  induction L with
  | nil =>
    intro acc res k h _
    have : acc = res := by simpa [getYearnVaultsGo] using h
    rw [← this]
  | cons v rest ih =>
    intro acc res k h hk
    simp only [List.map_cons, List.mem_cons, not_or] at hk
    cases hb : bal (mkVaultCaip v.chain v.vaultAddress) with
    | none =>
      simp only [getYearnVaultsGo, hb] at h
      exact ih acc res k h hk.2
    | some b =>
      rcases hE : (match y with
          | none => Except.ok (none : Option ℚ)
          | some pps => pps v.vaultAddress) with e | pv
      · simp only [getYearnVaultsGo, hb, hE] at h
        exact absurd h (by simp)
      · simp only [getYearnVaultsGo, hb, hE] at h
        rw [ih _ res k h hk.2, jsGet_jsSet]
        have hne : ¬v.vaultAddress = k := fun e => hk.1 e.symm
        simp [hne]

/-- In a successful run over an address-unique vault list, a held vault
whose `pricePerShare` resolved with no value gets exactly the degraded
record. -/
theorem getYearnVaultsGo_lookup_degraded (bal : Str → Option BalanceRec)
    (pps : Str → Except Unit (Option ℚ)) (L : List VaultDef) :
    ∀ acc res (v : VaultDef) (b : BalanceRec),
      getYearnVaultsGo bal (some pps) acc L = .ok res →
      (L.map VaultDef.vaultAddress).Nodup → v ∈ L →
      bal (mkVaultCaip v.chain v.vaultAddress) = some b →
      pps v.vaultAddress = .ok none →
      jsGet res v.vaultAddress = some (mkDegradedVault v b) := by
  induction L with
  | nil => intro acc res v b _ _ hv; exact absurd hv (List.not_mem_nil _)
  | cons u rest ih =>
    intro acc res v b h hnd hv hbal hpps
    simp only [List.map_cons, List.nodup_cons] at hnd
    rcases List.mem_cons.mp hv with rfl | hv'
    · simp only [getYearnVaultsGo, hbal, hpps] at h
      rw [getYearnVaultsGo_untouched bal (some pps) rest _ res _ h hnd.1,
        jsGet_jsSet]
      simp [mkDegradedVault]
    · have hne : u.vaultAddress ≠ v.vaultAddress := by
        intro e
        exact hnd.1 (e ▸ List.mem_map_of_mem VaultDef.vaultAddress hv')
      cases hb : bal (mkVaultCaip u.chain u.vaultAddress) with
      | none =>
        simp only [getYearnVaultsGo, hb] at h
        exact ih acc res v b h hnd.2 hv' hbal hpps
      | some b' =>
        cases hE : pps u.vaultAddress with
        | error e =>
          simp only [getYearnVaultsGo, hb, hE] at h
          exact absurd h (by simp)
        | ok pv =>
          simp only [getYearnVaultsGo, hb, hE] at h
          exact ih _ res v b h hnd.2 hv' hbal hpps

/-- C5 (amended). If the `pricePerShare` fetch for a held vault RESOLVES
with no value (`undefined`, as when the provider is absent or returns
nothing) — as opposed to rejecting, which aborts the whole batch (see the
counterexample) — the vault is still included in the computed vault set
with `pricePerShare` numeric zero, its fiat amount is exactly 0 (when its
asset record is present so the precision is defined), its `cryptoAmount` is
computed from the balance alone, and the other vaults of the batch are
computed normally (the whole run succeeds whenever no fetch rejects). -/
theorem getYearnVaults_missing_pps_degrades (L : List VaultDef)
    (bal : Str → Option BalanceRec) (pps : Str → Except Unit (Option ℚ))
    (v : VaultDef) (b : BalanceRec)
    (hall : ∀ u ∈ L, ∃ x, pps u.vaultAddress = .ok x)
    (hnd : (L.map VaultDef.vaultAddress).Nodup)
    (hv : v ∈ L)
    (hbal : bal (mkVaultCaip v.chain v.vaultAddress) = some b)
    (hpps : pps v.vaultAddress = .ok none) :
    ∃ res, getYearnVaults L bal (some pps) = .ok res ∧
      jsGet res v.vaultAddress = some (mkDegradedVault v b) ∧
      (mkDegradedVault v b).pricePerShare = some 0 ∧
      (∀ (assets : List (Str × Asset))
          (marketById : List (Str × MarketDataRecord)) (a : Asset),
        jsGet assets (mkVaultCaip v.chain v.vaultAddress) = some a →
        makeVaultFiatAmount assets marketById (mkDegradedVault v b) = some 0) ∧
      (∀ (assets : List (Str × Asset))
          (marketById : List (Str × MarketDataRecord))
          (yearnFind : Option (Str → Option ℚ)) (a : Asset),
        jsGet assets v.vaultAddress = some a →
        (mergeVault assets marketById yearnFind v.vaultAddress
            (mkDegradedVault v b)).cryptoAmount =
          some (b.balance / 10 ^ a.precision)) := by
  obtain ⟨res, hres⟩ := getYearnVaultsGo_ok bal pps L [] hall
  refine ⟨res, hres, ?_, rfl, ?_, ?_⟩
  · exact getYearnVaultsGo_lookup_degraded bal pps L [] res v b hres hnd hv
      hbal hpps
  · intro assets marketById a ha
    have : (mkDegradedVault v b).vaultCaip19 =
        mkVaultCaip v.chain v.vaultAddress := rfl
    simp [makeVaultFiatAmount, mkDegradedVault, ha, bnOrZero,
      BigNum.divPow10, BigNum.times]
  · intro assets marketById yearnFind a ha
    simp [mergeVault, mkDegradedVault, ha, bnOrZero, BigNum.divPow10]

/-- Witness for `getYearnVaults_missing_pps_degrades` with two held vaults:
`0xv1`'s fetch resolves no value, `0xv2`'s resolves 1. -/
theorem getYearnVaults_missing_pps_degrades_witness :
    exBalances (mkVaultCaip exVaultDef1.chain exVaultDef1.vaultAddress) =
        some ⟨1⟩ ∧
      exMissingPPS exVaultDef1.vaultAddress = Except.ok none ∧
      (∃ res, getYearnVaults [exVaultDef1, exVaultDef2] exBalances
            (some exMissingPPS) = .ok res ∧
        jsGet res exVaultDef1.vaultAddress =
            some (mkDegradedVault exVaultDef1 ⟨1⟩) ∧
        (mkDegradedVault exVaultDef1 ⟨1⟩).pricePerShare = some 0 ∧
        (∀ (assets : List (Str × Asset))
            (marketById : List (Str × MarketDataRecord)) (a : Asset),
          jsGet assets (mkVaultCaip exVaultDef1.chain exVaultDef1.vaultAddress) =
              some a →
          makeVaultFiatAmount assets marketById
              (mkDegradedVault exVaultDef1 ⟨1⟩) = some 0) ∧
        (∀ (assets : List (Str × Asset))
            (marketById : List (Str × MarketDataRecord))
            (yearnFind : Option (Str → Option ℚ)) (a : Asset),
          jsGet assets exVaultDef1.vaultAddress = some a →
          (mergeVault assets marketById yearnFind exVaultDef1.vaultAddress
              (mkDegradedVault exVaultDef1 ⟨1⟩)).cryptoAmount =
            some ((1 : ℚ) / 10 ^ a.precision))) := by
  refine ⟨rfl, rfl, ?_⟩
  exact getYearnVaults_missing_pps_degrades [exVaultDef1, exVaultDef2]
    exBalances exMissingPPS exVaultDef1 ⟨1⟩
    (by
      intro u hu
      rcases List.mem_cons.mp hu with rfl | hu2
      · exact ⟨none, rfl⟩
      · rcases List.mem_cons.mp hu2 with rfl | h
        · exact ⟨some 1, rfl⟩
        · exact absurd h (List.not_mem_nil u))
    (by decide) (by decide) rfl rfl

/-! ## Bulk description fetch (`getAssetDescriptions`) -/

/-- The `Promise.allSettled` post-processing loop of `getAssetDescriptions`
over the working copy of `byId`: each fetch outcome is either a fulfilled
description (`some d`, which is written into the record's `description`
field) or a rejection (`none`, which is logged and skipped). Writing to a
record that is absent from `byId` throws, rejecting the whole query
(`none` result). -/
def applyDescriptions (byId : List (Str × Asset)) :
    List (Str × Option Str) → Option (List (Str × Asset))
  | [] => some byId
  | (_, none) :: rest => applyDescriptions byId rest
  | (id, some d) :: rest =>
    match jsGet byId id with
    | none => none
    | some a =>
      applyDescriptions (jsSet byId id { a with description := some d }) rest

/-- The `getAssetDescriptions` bulk query followed by its
`onCacheEntryAdded` dispatch of `setAssets` with the resulting
`{byId, ids}` (the ids list is passed through unchanged from the state). -/
def getAssetDescriptions (s : AssetsState)
    (fetches : List (Str × Option Str)) : Option AssetsState :=
  (applyDescriptions s.byId fetches).map
    (fun newById => setAssets s ⟨newById, s.ids⟩)

theorem applyDescriptions_ok (fetches : List (Str × Option Str)) :
    ∀ byId : List (Str × Asset),
      (∀ p ∈ fetches, p.2 = none ∨ ∃ a, jsGet byId p.1 = some a) →
      ∃ out, applyDescriptions byId fetches = some out := by
  induction fetches with
  | nil => intro byId _; exact ⟨byId, rfl⟩
  | cons hd rest ih =>
    obtain ⟨id, r⟩ := hd
    intro byId h
    cases r with
    | none =>
      exact ih byId (fun p hp => h p (List.mem_cons_of_mem _ hp))
    | some d =>
      rcases h (id, some d) (List.mem_cons_self _ _) with h' | ⟨a, ha⟩
      · exact absurd h' (by simp)
      · obtain ⟨out, hout⟩ := ih (jsSet byId id { a with description := some d })
          (by
            intro p hp
            rcases h p (List.mem_cons_of_mem _ hp) with h' | ⟨a', ha'⟩
            · exact Or.inl h'
            · right
              rw [jsGet_jsSet]
              by_cases he : id = p.1
              · exact ⟨{ a with description := some d }, by rw [if_pos he]⟩
              · exact ⟨a', by rw [if_neg he]; exact ha'⟩)
        refine ⟨out, ?_⟩
        simp only [applyDescriptions, ha]
        exact hout

theorem applyDescriptions_keys (fetches : List (Str × Option Str)) :
    ∀ byId out, applyDescriptions byId fetches = some out →
      keysOf out = keysOf byId := by
  induction fetches with
  | nil =>
    intro byId out h
    obtain rfl := Option.some.inj h
    rfl
  | cons hd rest ih =>
    obtain ⟨id, r⟩ := hd
    intro byId out h
    cases r with
    | none => exact ih byId out h
    | some d =>
      cases ha : jsGet byId id with
      | none =>
        simp only [applyDescriptions, ha] at h
        exact Option.noConfusion h
      | some a =>
        simp only [applyDescriptions, ha] at h
        rw [ih _ out h, keysOf_jsSet_of_mem]
        rw [← jsGet_isSome_iff_mem, ha]
        rfl

theorem applyDescriptions_unchanged (fetches : List (Str × Option Str)) :
    ∀ byId out (k : Str), applyDescriptions byId fetches = some out →
      (∀ d, (k, some d) ∉ fetches) → jsGet out k = jsGet byId k := by
  induction fetches with
  | nil =>
    intro byId out k h _
    obtain rfl := Option.some.inj h
    rfl
  | cons hd rest ih =>
    obtain ⟨id, r⟩ := hd
    intro byId out k h hk
    cases r with
    | none =>
      exact ih byId out k h
        (fun d hd => hk d (List.mem_cons_of_mem _ hd))
    | some d =>
      cases ha : jsGet byId id with
      | none =>
        simp only [applyDescriptions, ha] at h
        exact Option.noConfusion h
      | some a =>
        simp only [applyDescriptions, ha] at h
        have hne : ¬id = k := by
          rintro rfl
          exact hk d (List.mem_cons_self _ _)
        rw [ih _ out k h (fun d' hd' => hk d' (List.mem_cons_of_mem _ hd')),
          jsGet_jsSet, if_neg hne]

theorem applyDescriptions_updated (fetches : List (Str × Option Str)) :
    ∀ byId out (id : Str) (d : Str) (a : Asset),
      (fetches.map Prod.fst).Nodup →
      applyDescriptions byId fetches = some out →
      (id, some d) ∈ fetches → jsGet byId id = some a →
      jsGet out id = some { a with description := some d } := by
  induction fetches with
  | nil => intro byId out id d a _ _ hmem; exact absurd hmem (List.not_mem_nil _)
  | cons hd rest ih =>
    obtain ⟨id', r⟩ := hd
    intro byId out id d a hnd h hmem hgot
    simp only [List.map_cons, List.nodup_cons] at hnd
    rcases List.mem_cons.mp hmem with heq | hmem'
    · obtain ⟨rfl, hr⟩ := Prod.mk.injEq _ _ _ _ ▸ heq
      obtain rfl : r = some d := hr.symm ▸ rfl
      simp only [applyDescriptions, hgot] at h
      have hnorest : ∀ d', (id, some d') ∉ rest := by
        intro d' hd'
        exact hnd.1 (List.mem_map_of_mem Prod.fst hd')
      rw [applyDescriptions_unchanged rest _ out id h hnorest, jsGet_jsSet,
        if_pos rfl]
    · have hid : id ∈ rest.map Prod.fst :=
        List.mem_map_of_mem Prod.fst hmem'
      have hne : id' ≠ id := fun e => hnd.1 (e ▸ hid)
      cases r with
      | none => exact ih byId out id d a hnd.2 h hmem' hgot
      | some d' =>
        cases ha' : jsGet byId id' with
        | none =>
          simp only [applyDescriptions, ha'] at h
          exact Option.noConfusion h
        | some a' =>
          simp only [applyDescriptions, ha'] at h
          refine ih _ out id d a hnd.2 h hmem' ?_
          rw [jsGet_jsSet, if_neg hne]
          exact hgot

/-- C6. In the bulk description fetch, if the fetch for identifier `kid` is
rejected while all the others are fulfilled (and each fulfilled identifier
has a record in the cache), the whole batch still succeeds: every other
description is recorded on its record and upserted into the cache, while
the cache record for `kid` is left unchanged (and the ids list is
untouched). The single failure never fails the batch. -/
theorem getAssetDescriptions_partial_failure (s : AssetsState)
    (L₁ L₂ : List (Str × Option Str)) (kid : Str)
    (hndKeys : (keysOf s.byId).Nodup)
    (hndIds : s.ids.Nodup)
    (hndF : ((L₁ ++ (kid, none) :: L₂).map Prod.fst).Nodup)
    (_hsucc : ∀ p ∈ L₁ ++ L₂, ∃ d, p.2 = some d)
    (hpres : ∀ p ∈ L₁ ++ L₂, ∃ a, jsGet s.byId p.1 = some a) :
    ∃ s', getAssetDescriptions s (L₁ ++ (kid, none) :: L₂) = some s' ∧
      jsGet s'.byId kid = jsGet s.byId kid ∧
      (∀ (id d : Str) (a : Asset), (id, some d) ∈ L₁ ++ L₂ →
        jsGet s.byId id = some a →
        jsGet s'.byId id = some { a with description := some d }) ∧
      s'.ids = s.ids := by
  have hmemF : ∀ p, p ∈ L₁ ++ (kid, none) :: L₂ →
      p = (kid, none) ∨ p ∈ L₁ ++ L₂ := by
    intro p hp
    rcases List.mem_append.mp hp with h | h
    · exact Or.inr (List.mem_append_left _ h)
    · rcases List.mem_cons.mp h with h' | h'
      · exact Or.inl h'
      · exact Or.inr (List.mem_append_right _ h')
  obtain ⟨out, hout⟩ := applyDescriptions_ok (L₁ ++ (kid, none) :: L₂) s.byId
    (by
      intro p hp
      rcases hmemF p hp with rfl | hp'
      · exact Or.inl rfl
      · exact Or.inr (hpres p hp'))
  have hkeys : keysOf out = keysOf s.byId :=
    applyDescriptions_keys _ s.byId out hout
  have houtnodup : (keysOf out).Nodup := hkeys ▸ hndKeys
  have hlook : ∀ k, jsGet (setAssets s ⟨out, s.ids⟩).byId k =
      jsAlt (jsGet out k) (jsGet s.byId k) := by
    intro k
    show jsGet (spread s.byId out) k = _
    rw [jsGet_spread, jsGet_reverse_of_nodup out k houtnodup]
  refine ⟨setAssets s ⟨out, s.ids⟩, ?_, ?_, ?_, ?_⟩
  · simp [getAssetDescriptions, hout]
  · have hkd : ∀ d, (kid, some d) ∉ L₁ ++ (kid, none) :: L₂ := by
      intro d hd
      have := List.inj_on_of_nodup_map hndF hd
        (List.mem_append_right _ (List.mem_cons_self _ _)) rfl
      simp at this
    have hunc : jsGet out kid = jsGet s.byId kid :=
      applyDescriptions_unchanged _ s.byId out kid hout hkd
    rw [hlook kid, hunc]
    cases jsGet s.byId kid <;> rfl
  · intro id d a hmem hgot
    have hmem' : (id, some d) ∈ L₁ ++ (kid, none) :: L₂ := by
      rcases List.mem_append.mp hmem with h | h
      · exact List.mem_append_left _ h
      · exact List.mem_append_right _ (List.mem_cons_of_mem _ h)
    have hupd := applyDescriptions_updated _ s.byId out id d a hndF hout
      hmem' hgot
    rw [hlook id, hupd]
    rfl
  · show dedupFirst (s.ids ++ s.ids) = s.ids
    rw [dedupFirst_append_of_subset s.ids s.ids (fun x hx => hx),
      dedupFirst_eq_self_of_nodup _ hndIds]

/-- Concrete cache for the C6 witness. -/
def exDescState : AssetsState :=
  ⟨[("caip-a".data, assetA), ("caip-b".data, assetB), ("caip-c".data, assetC)],
    ["caip-a".data, "caip-b".data, "caip-c".data]⟩

/-- Witness for `getAssetDescriptions_partial_failure`: three fetches, the
middle one (`caip-b`) rejected. -/
theorem getAssetDescriptions_partial_failure_witness :
    ((([("caip-a".data, some "da".data)] ++
        ("caip-b".data, (none : Option Str)) ::
          [("caip-c".data, some "dc".data)]).map Prod.fst).Nodup) ∧
      (∃ s', getAssetDescriptions exDescState
          ([("caip-a".data, some "da".data)] ++
            ("caip-b".data, (none : Option Str)) ::
              [("caip-c".data, some "dc".data)]) = some s' ∧
        jsGet s'.byId "caip-b".data = jsGet exDescState.byId "caip-b".data ∧
        (∀ (id d : Str) (a : Asset),
          (id, some d) ∈ [("caip-a".data, some "da".data)] ++
            [("caip-c".data, some "dc".data)] →
          jsGet exDescState.byId id = some a →
          jsGet s'.byId id = some { a with description := some d }) ∧
        s'.ids = exDescState.ids) := by
  refine ⟨by decide, ?_⟩
  exact getAssetDescriptions_partial_failure exDescState
    [("caip-a".data, some "da".data)] [("caip-c".data, some "dc".data)]
    "caip-b".data (by decide) (by decide) (by decide)
    (by
      intro p hp
      have hp' : p ∈ [("caip-a".data, some "da".data),
          ("caip-c".data, some "dc".data)] := by simpa using hp
      rcases List.mem_cons.mp hp' with rfl | hp2
      · exact ⟨"da".data, rfl⟩
      · rcases List.mem_cons.mp hp2 with rfl | h
        · exact ⟨"dc".data, rfl⟩
        · exact absurd h (List.not_mem_nil _))
    (by
      intro p hp
      have hp' : p ∈ [("caip-a".data, some "da".data),
          ("caip-c".data, some "dc".data)] := by simpa using hp
      rcases List.mem_cons.mp hp' with rfl | hp2
      · exact ⟨assetA, rfl⟩
      · rcases List.mem_cons.mp hp2 with rfl | h
        · exact ⟨assetC, rfl⟩
        · exact absurd h (List.not_mem_nil _))
